import Mathlib

/-!
Verification of the constraint-propagation engine in csc384/A2/propagators.py.

The repository ships the propagators (prop_BT, prop_FC, prop_GAC and the
helper find_assignments) but not the course-provided cspbase.py that defines
the Variable, Constraint and CSP classes those propagators call into.  The
propagator bodies below are translated directly from src/csc384/A2/propagators.py;
the Variable/Constraint/CSP operations are modelled from the specification
(sections 3, 4.1, 4.2 and the scenarios of section 8).

State is explicit: a network state maps each variable identifier to its
mutable record (current domain list and optional assigned value), and every
mutating operation of the Python code becomes a function from states to states.
-/

abbrev Value := Int

abbrev VarId := Nat

/-- Modelled from the spec (section 3): the per-variable mutable record.
`curDom` is the underlying current-domain list mutated by prune/restore;
`assigned` is the optional bound value, tracked independently of pruning
("assignment and domain pruning are tracked independently"). -/
structure VarState where
  curDom : List Value
  assigned : Option Value
deriving DecidableEq, Repr

/-- The mutable network state: one `VarState` per variable identifier. -/
abbrev NetState := VarId → VarState

/-- Modelled from the spec: Variable.is_assigned from the missing cspbase.py. -/
def is_assigned (s : NetState) (v : VarId) : Bool :=
  (s v).assigned.isSome

/-- Modelled from the spec: Variable.get_assigned_value from the missing
cspbase.py; `none` models Python's None for an unassigned variable. -/
def get_assigned_value (s : NetState) (v : VarId) : Option Value :=
  (s v).assigned

/-- Modelled from the spec: Variable.cur_domain from the missing cspbase.py,
the "snapshot of viable values" (section 4.1).  When the variable is assigned,
the only viable value is the assigned one (required by Scenario 1 of section 8:
assigning var1 := 1 and running GAC prunes nothing from var1 and returns only
`[(var2, 1)]`); otherwise it is the underlying current-domain list. -/
def cur_domain (s : NetState) (v : VarId) : List Value :=
  match (s v).assigned with
  | some a => [a]
  | none => (s v).curDom

/-- Modelled from the spec: Variable.in_cur_domain from the missing cspbase.py,
the `contains` test of section 4.1, consistent with `cur_domain`. -/
def in_cur_domain (s : NetState) (v : VarId) (val : Value) : Bool :=
  match (s v).assigned with
  | some a => val == a
  | none => (s v).curDom.contains val

/-- Modelled from the spec: Variable.cur_domain_size from the missing
cspbase.py, the `size` operation of section 4.1. -/
def cur_domain_size (s : NetState) (v : VarId) : Nat :=
  (cur_domain s v).length

/-- Modelled from the spec: Variable.prune_value from the missing cspbase.py.
Removes the value from the underlying current-domain list; it does not touch
the assignment. -/
def prune_value (s : NetState) (v : VarId) (val : Value) : NetState :=
  fun w => if w = v then { s v with curDom := (s v).curDom.erase val } else s w

/-- Modelled from the spec: Variable.assign from the missing cspbase.py. -/
def assign (s : NetState) (v : VarId) (val : Value) : NetState :=
  fun w => if w = v then { s v with assigned := some val } else s w

/-- Modelled from the spec: Variable.unassign from the missing cspbase.py. -/
def unassign (s : NetState) (v : VarId) : NetState :=
  fun w => if w = v then { s v with assigned := none } else s w

/-- Modelled from the spec (section 3): a constraint is an ordered scope of
variable identifiers plus the explicit list of satisfying value tuples,
positionally aligned with the scope. -/
structure Constraint where
  scope : List VarId
  satTuples : List (List Value)
deriving DecidableEq, Repr

/-- Modelled from the spec: Constraint.check from the missing cspbase.py
(section 4.2): membership of the full tuple in `satTuples`.  The argument
carries `Option Value` entries because the propagators build it from
`get_assigned_value`, whose Python result may be None; a tuple containing
None is never a member of a list of integer tuples, which the `map some`
lifting reproduces. -/
def Constraint.check (c : Constraint) (vals : List (Option Value)) : Bool :=
  c.satTuples.any (fun t => t.map some == vals)

/-- Modelled from the spec: Constraint.get_n_unasgn from the missing
cspbase.py, the `unassigned_count` of section 4.2. -/
def Constraint.get_n_unasgn (c : Constraint) (s : NetState) : Nat :=
  (c.scope.filter (fun v => !(is_assigned s v))).length

/-- Modelled from the spec: Constraint.has_support from the missing cspbase.py
(section 4.2): a linear scan of `satTuples` for a tuple that assigns `val` at
`var`'s scope position and, at every other scope position, a value currently
present in that variable's current domain. -/
def Constraint.has_support (c : Constraint) (s : NetState) (var : VarId) (val : Value) : Bool :=
  c.satTuples.any (fun t =>
    (c.scope.zip t).all (fun p =>
      if p.1 = var then p.2 == val else in_cur_domain s p.1 p.2))

/-- Modelled from the spec (section 3): the network owns the constraint list. -/
structure CSP where
  cons : List Constraint
deriving DecidableEq, Repr

/-- Modelled from the spec: CSP.get_all_cons from the missing cspbase.py. -/
def CSP.get_all_cons (csp : CSP) : List Constraint :=
  csp.cons

/-- Modelled from the spec: CSP.get_cons_with_var from the missing cspbase.py:
the constraints whose scope references the variable. -/
def CSP.get_cons_with_var (csp : CSP) (v : VarId) : List Constraint :=
  csp.cons.filter (fun c => c.scope.contains v)

/-! ### prop_BT (propagators.py lines 66-80) -/

/-- The `for c in csp.get_cons_with_var(newVar)` loop of prop_BT: check every
fully instantiated constraint against the tuple of assigned values, returning
False at the first rejection. -/
def btLoop (s : NetState) : List Constraint → Bool
  | [] => true
  | c :: rest =>
    if c.get_n_unasgn s = 0 then
      if c.check (c.scope.map (get_assigned_value s)) then btLoop s rest else false
    else btLoop s rest

/-- prop_BT, translated from propagators.py lines 66-80.  It only reads the
state (it calls no mutating method), so it returns just the verdict and the
(always empty) pruning list. -/
def prop_BT (s : NetState) (csp : CSP) (newVar : Option VarId) : Bool × List (VarId × Value) :=
  match newVar with
  | none => (true, [])
  | some nv => (btLoop s (csp.get_cons_with_var nv), [])

/-! ### prop_FC (propagators.py lines 82-147) -/

/-- In the source (propagators.py line 141) the dead-end test is written
`unassigned_var.cur_domain_size == 0` without call parentheses: it compares a
bound-method object with the integer 0, which is always False in Python.  We
embed that comparison faithfully as the constant `false`. -/
def cur_domain_size_method_eq_zero : Bool := false

/-- The `for val in curDom` loop of prop_FC (lines 128-145): temporarily
assign the candidate value to the single unassigned variable, build the full
tuple of assigned values, check the constraint, prune on rejection, and
unassign again.  Returns (ok, resulting state, pruning list). -/
def fcValLoop (c : Constraint) (u : VarId) (s : NetState)
    (pruned : List (VarId × Value)) :
    List Value → Bool × List (VarId × Value) × NetState
  | [] => (true, pruned, s)
  | val :: rest =>
    let s1 := assign s u val
    let vals := c.scope.map (get_assigned_value s1)
    if c.check vals then
      fcValLoop c u (unassign s1 u) pruned rest
    else
      let step :=
        if in_cur_domain s1 u val then (prune_value s1 u val, pruned ++ [(u, val)])
        else (s1, pruned)
      if cur_domain_size_method_eq_zero then
        (false, step.2, unassign step.1 u)
      else
        fcValLoop c u (unassign step.1 u) step.2 rest

/-- The `for c in cons` loop of prop_FC (lines 118-145).  The source selects
the unassigned variable by looping over the scope and keeping the last
unassigned one together with a snapshot of its current domain; under the
`get_n_unasgn = 1` guard that filter has exactly one element, so the catch-all
branch is unreachable. -/
def fcConsLoop (s : NetState) (pruned : List (VarId × Value)) :
    List Constraint → Bool × List (VarId × Value) × NetState
  | [] => (true, pruned, s)
  | c :: rest =>
    if c.get_n_unasgn s = 1 then
      match c.scope.filter (fun v => !(is_assigned s v)) with
      | [u] =>
        match fcValLoop c u s pruned (cur_domain s u) with
        | (true, pruned1, s1) => fcConsLoop s1 pruned1 rest
        | (false, pruned1, s1) => (false, pruned1, s1)
      | _ => fcConsLoop s pruned rest
    else fcConsLoop s pruned rest

/-- prop_FC, translated from propagators.py lines 82-147.  Returns
(ok, pruning list, resulting state). -/
def prop_FC (s : NetState) (csp : CSP) (newVar : Option VarId) :
    Bool × List (VarId × Value) × NetState :=
  match newVar with
  | none => fcConsLoop s [] csp.get_all_cons
  | some nv => fcConsLoop s [] (csp.get_cons_with_var nv)

/-! ### prop_GAC (propagators.py lines 155-216) -/

/-- The `for val in new_curDom` loop of lines 187-190.  The loop only calls
prune_value, which never touches the assignment, so reading
`newVar.get_assigned_value()` once before the loop is faithful to the source
reading it on every iteration. -/
def gacNewVarLoop (v : VarId) (a : Option Value) (s : NetState)
    (pruned : List (VarId × Value)) : List Value → NetState × List (VarId × Value)
  | [] => (s, pruned)
  | val :: rest =>
    if some val ≠ a then
      gacNewVarLoop v a (prune_value s v val) (pruned ++ [(v, val)]) rest
    else gacNewVarLoop v a s pruned rest

/-- Lines 185-190 of prop_GAC: prune from newVar's current domain every value
different from its assigned value, appending each pruned pair.  The comparison
`val != newVar.get_assigned_value()` is against an optional value, so when the
variable is unassigned every value differs from None. -/
def gacPruneNewVar (s : NetState) (v : VarId) : NetState × List (VarId × Value) :=
  gacNewVarLoop v (get_assigned_value s v) s [] (cur_domain s v)

/-- Outcome of processing (part of) one popped constraint in the GAC loop:
either an immediate failure return with the state and pruning list at that
point, or continue with updated state, pruning list and queue. -/
inductive GacStep where
  | fail (s : NetState) (pruned : List (VarId × Value))
  | cont (s : NetState) (pruned : List (VarId × Value)) (queue : List Constraint)

/-- The `for c2 in csp.get_cons_with_var(var)` iteration of lines 212-214:
append each candidate not already present, testing membership against the
queue as it grows. -/
def enqueueAll (queue : List Constraint) : List Constraint → List Constraint
  | [] => queue
  | c2 :: rest => enqueueAll (if queue.contains c2 then queue else queue ++ [c2]) rest

/-- The duplicate-free enqueue of lines 212-214: append every constraint
referencing the variable that is not already in the queue. -/
def gacEnqueue (csp : CSP) (var : VarId) (queue : List Constraint) : List Constraint :=
  enqueueAll queue (csp.get_cons_with_var var)

/-- The `for val in var.cur_domain()` loop of prop_GAC (lines 197-214) for one
scope variable, over a snapshot of its current domain. -/
def gacValLoop (csp : CSP) (c : Constraint) (var : VarId) (s : NetState)
    (pruned : List (VarId × Value)) (queue : List Constraint) :
    List Value → GacStep
  | [] => GacStep.cont s pruned queue
  | val :: rest =>
    if c.has_support s var val then gacValLoop csp c var s pruned queue rest
    else
      let step :=
        if in_cur_domain s var val then (prune_value s var val, pruned ++ [(var, val)])
        else (s, pruned)
      if cur_domain_size step.1 var = 0 then GacStep.fail step.1 step.2
      else gacValLoop csp c var step.1 step.2 (gacEnqueue csp var queue) rest

/-- The `for var in vars` loop of prop_GAC (lines 196-214) over the scope of
the popped constraint. -/
def gacVarLoop (csp : CSP) (c : Constraint) (s : NetState)
    (pruned : List (VarId × Value)) (queue : List Constraint) :
    List VarId → GacStep
  | [] => GacStep.cont s pruned queue
  | var :: rest =>
    match gacValLoop csp c var s pruned queue (cur_domain s var) with
    | GacStep.fail s1 pruned1 => GacStep.fail s1 pruned1
    | GacStep.cont s1 pruned1 queue1 => gacVarLoop csp c s1 pruned1 queue1 rest

/-- The `while len(cons) != 0` loop of prop_GAC (lines 193-214).  The Python
loop need not terminate (nothing shrinks when an assigned variable keeps
failing its support test), so the embedding consumes one unit of fuel per
popped constraint and returns `none` when the fuel runs out, modelling
non-termination. -/
def gacLoop (csp : CSP) : Nat → NetState → List (VarId × Value) → List Constraint →
    Option (Bool × List (VarId × Value) × NetState)
  | _, s, pruned, [] => some (true, pruned, s)
  | 0, _, _, _ :: _ => none
  | fuel + 1, s, pruned, c :: rest =>
    match gacVarLoop csp c s pruned rest c.scope with
    | GacStep.fail s1 pruned1 => some (false, pruned1, s1)
    | GacStep.cont s1 pruned1 queue1 => gacLoop csp fuel s1 pruned1 queue1

/-- The initial GAC queue (lines 180-183): every constraint when no newly
assigned variable is given, otherwise the constraints referencing it. -/
def initialGACQueue (csp : CSP) (newVar : Option VarId) : List Constraint :=
  match newVar with
  | none => csp.get_all_cons
  | some nv => csp.get_cons_with_var nv

/-- prop_GAC, translated from propagators.py lines 155-216, with fuel bounding
the number of constraint pops.  Returns `none` only when the fuel is
exhausted with a non-empty queue. -/
def prop_GAC (fuel : Nat) (s : NetState) (csp : CSP) (newVar : Option VarId) :
    Option (Bool × List (VarId × Value) × NetState) :=
  match newVar with
  | none => gacLoop csp fuel s [] (initialGACQueue csp none)
  | some nv =>
    let init := gacPruneNewVar s nv
    gacLoop csp fuel init.1 init.2 (initialGACQueue csp (some nv))

/-! ### find_assignments (propagators.py lines 221-245) -/

/-- The `for value in v.cur_domain()` loop of find_assignments (lines
238-245): run the body on each value, returning early on a truthy result or
on a propagated fault; after the final iteration the loop falls through to
`return res`, which returns the body's last result — and when the domain is
empty that read of `res` happens before any assignment to it, a fault we
model as `none`. -/
def pyLastResLoop (f : Value → Option Bool) : List Value → Option Bool
  | [] => none
  | [value] =>
    match f value with
    | some true => some true
    | r => r
  | value :: rest =>
    match f value with
    | none => none
    | some true => some true
    | some false => pyLastResLoop f rest

/-- find_assignments with explicit fuel: each recursive call in the source
increments `num`, so the fuel only bounds the recursion depth.  An index of
`varList` outside its range (a Python IndexError) is also modelled as
`none`. -/
def faFuel (s : NetState) (c : Constraint) (var : VarId) (val : Value)
    (varList : List VarId) : Nat → List Value → Nat → Nat → Option Bool
  | 0, _, _, _ => none
  | fuel + 1, ass, num, l =>
    if num = l then some (c.check (ass.map some))
    else
      match varList.get? num with
      | none => none
      | some v =>
        if v = var then faFuel s c var val varList fuel (ass ++ [val]) (num + 1) l
        else
          pyLastResLoop
            (fun value => faFuel s c var val varList fuel (ass ++ [value]) (num + 1) l)
            (cur_domain s v)

/-- find_assignments, translated from propagators.py lines 221-245.  The fuel
`varList.length + l + 1` exceeds the depth of every chain of `num + 1`
recursions that can reach a base case, so `none` means the Python call
faults (an unbound `res` or an out-of-range index). -/
def find_assignments (s : NetState) (ass : List Value) (var : VarId) (val : Value)
    (varList : List VarId) (c : Constraint) (num l : Nat) : Option Bool :=
  faFuel s c var val varList (varList.length + l + 1) ass num l

/-! ### Concrete networks used by individual claims -/

/-- Network for the FC dead-end slip: variable 0 has domain {1,2} and is
assigned 1; variable 1 is unassigned with current domain {1}; the single
constraint over (0,1) is satisfied only by the tuple (1,2). -/
def sFC1 : NetState := fun w =>
  if w = 0 then ⟨[1, 2], some 1⟩ else if w = 1 then ⟨[1], none⟩ else ⟨[], none⟩

def cspFC1 : CSP := ⟨[⟨[0, 1], [[1, 2]]⟩]⟩

/-- C1: processing the constraint of `cspFC1` with newVar = 0 forward-checks
the single unassigned variable 1, whose only candidate value 1 fails the
check and is pruned, emptying its current domain.  The source is documented
to report a dead end here (propagators.py lines 29-30 and 86), but line 141
compares the bound method `cur_domain_size` with 0 without calling it — a
comparison that is always False in Python — so prop_FC returns ok = true
with variable 1's current domain empty instead of returning ok = false.  This
theorem evaluates the embedding at that failing input. -/
theorem fc_misses_empty_domain_deadend :
    prop_FC sFC1 cspFC1 (some 0) =
      (true, [(1, 1)], (prop_FC sFC1 cspFC1 (some 0)).2.2) ∧
    cur_domain ((prop_FC sFC1 cspFC1 (some 0)).2.2) 1 = [] := by
  exact ⟨rfl, rfl⟩

/-- Network for the GAC double-prune: variable 0 has domain {1,2} and is
assigned 1; variable 1 is unassigned with current domain {1,2}; constraint
c1 over (0) admits only value 2, constraint c2 over (0,1) admits only tuples
with value 2 for variable 0. -/
def sDup : NetState := fun w =>
  if w = 0 then ⟨[1, 2], some 1⟩ else if w = 1 then ⟨[1, 2], none⟩ else ⟨[], none⟩

def cspDup : CSP := ⟨[⟨[0], [[2]]⟩, ⟨[0, 1], [[2, 1], [2, 2]]⟩]⟩

/-- C6: the file header of propagators.py (lines 38-39) states that a
propagator should never prune a value that has already been pruned nor prune
the same value twice, yet prop_GAC on `cspDup` prunes the pair (0, 1) twice:
value 1 has no support for assigned variable 0 in either constraint, the
assigned variable's current-domain view keeps containing 1 after the first
prune, and the dead end is only reached later through variable 1.  The call
terminates and returns a pruning list with a duplicated pair. -/
theorem gac_double_prune :
    (prop_GAC 10 sDup cspDup (some 0)).map (fun r => (r.1, r.2.1)) =
      some (false, [(0, 1), (0, 1), (1, 1), (1, 2)]) := by
  exact rfl

/-- Scenario 1 network: variables 0 and 1 with domains {1,2}, a not-equal
constraint between them, and variable 0 assigned 1. -/
def sNeq : NetState := fun w =>
  if w = 0 then ⟨[1, 2], some 1⟩ else if w = 1 then ⟨[1, 2], none⟩ else ⟨[], none⟩

def cspNeq : CSP := ⟨[⟨[0, 1], [[1, 2], [2, 1]]⟩]⟩

/-- C8: on the two-variable not-equal network with variable 0 assigned 1,
prop_GAC with newVar = 0 returns ok = true with exactly the pruning list
[(var2, 1)] and leaves variable 1's current domain equal to [2]. -/
theorem gac_scenario_neq_prunes :
    (prop_GAC 5 sNeq cspNeq (some 0)).map (fun r => (r.1, r.2.1, cur_domain r.2.2 1)) =
      some (true, [(1, 1)], [2]) := by
  exact rfl

/-- Network for the find_assignments fault: variable 1 is unassigned with an
empty current domain; variable 0 has domain {1,2}. -/
def sFa : NetState := fun w =>
  if w = 1 then ⟨[], none⟩ else ⟨[1, 2], none⟩

def cFa : Constraint := ⟨[0, 1], [[1, 2]]⟩

/-- C9: find_assignments is not total.  Searching for a support for variable 0
with value 1 over the scope [0, 1], where the sibling variable 1 has an empty
current domain, the for-loop body at variable 1's recursion level never
executes, so the source reads its result variable before any assignment and
the call faults (modelled as `none`) instead of returning false. -/
theorem find_assignments_faults_on_empty_sibling_domain :
    find_assignments sFa [] 0 1 [0, 1] cFa 0 2 = none := by
  exact rfl

/-- Fully assigned network on which the propagators disagree: variables 0 and
1 both assigned 1 with domains {1,2}, under a not-equal constraint (violated
by the assignment). -/
def sAllAsgn : NetState := fun w =>
  if w = 0 then ⟨[1, 2], some 1⟩ else if w = 1 then ⟨[1, 2], some 1⟩ else ⟨[], some 0⟩

def cspAllAsgn : CSP := ⟨[⟨[0, 1], [[1, 2], [2, 1]]⟩]⟩

/-- C5 counterexample: on the fully assigned network `sAllAsgn` (every
variable carries an assignment) with newVar = 0, prop_BT reports ok = false
(the not-equal constraint is fully instantiated and violated) while prop_FC
reports ok = true (no constraint has exactly one unassigned variable, so
forward checking checks nothing).  The three propagators therefore do not
return the same ok verdict on this fully-assigned network, refuting the claim
as stated. -/
theorem bt_fc_differ_on_fully_assigned :
    (∀ v : VarId, is_assigned sAllAsgn v = true) ∧
    (prop_BT sAllAsgn cspAllAsgn (some 0)).1 = false ∧
    (prop_FC sAllAsgn cspAllAsgn (some 0)).1 = true := by
  refine ⟨?_, rfl, rfl⟩
  intro v
  by_cases h0 : v = 0
  · simp [sAllAsgn, is_assigned, h0]
  · by_cases h1 : v = 1 <;> simp [sAllAsgn, is_assigned, h0, h1]

/-! ### Basic facts about the state operations -/

theorem prune_value_assigned (s : NetState) (v : VarId) (val : Value) (w : VarId) :
    ((prune_value s v val) w).assigned = (s w).assigned := by
  by_cases h : w = v <;> simp [prune_value, h]

theorem prune_value_curDom (s : NetState) (v : VarId) (val : Value) (w : VarId) :
    ((prune_value s v val) w).curDom =
      if w = v then (s w).curDom.erase val else (s w).curDom := by
  by_cases h : w = v <;> simp [prune_value, h]

theorem prune_value_other (s : NetState) (v : VarId) (val : Value) (w : VarId) (h : w ≠ v) :
    (prune_value s v val) w = s w := by
  simp [prune_value, h]

theorem assign_assigned (s : NetState) (v : VarId) (val : Value) (w : VarId) :
    ((assign s v val) w).assigned = if w = v then some val else (s w).assigned := by
  by_cases h : w = v <;> simp [assign, h]

theorem assign_curDom (s : NetState) (v : VarId) (val : Value) (w : VarId) :
    ((assign s v val) w).curDom = (s w).curDom := by
  by_cases h : w = v <;> simp [assign, h]

theorem unassign_assigned (s : NetState) (v : VarId) (w : VarId) :
    ((unassign s v) w).assigned = if w = v then none else (s w).assigned := by
  by_cases h : w = v <;> simp [unassign, h]

theorem unassign_curDom (s : NetState) (v : VarId) (w : VarId) :
    ((unassign s v) w).curDom = (s w).curDom := by
  by_cases h : w = v <;> simp [unassign, h]

/-! ### C7: the prop_BT contract -/

theorem btLoop_eq_false_iff (s : NetState) (l : List Constraint) :
    btLoop s l = false ↔
      ∃ c ∈ l, c.get_n_unasgn s = 0 ∧
        c.check (c.scope.map (get_assigned_value s)) = false := by
  induction l with
  | nil => simp [btLoop]
  | cons c rest ih =>
    by_cases h : c.get_n_unasgn s = 0
    · by_cases hc : c.check (c.scope.map (get_assigned_value s)) = true
      · simp [btLoop, h, hc, ih]
      · simp only [Bool.not_eq_true] at hc
        simp [btLoop, h, hc]
    · simp [btLoop, h, ih]

/-- C7: prop_BT never prunes (its embedding calls no state-mutating operation
and its pruning list is empty on every path); with no newVar it checks no
constraints and returns (true, []); with newVar present it returns ok = false
exactly when some constraint touching newVar whose scope has zero unassigned
variables rejects the tuple of its scope variables' bound values. -/
theorem bt_contract (s : NetState) (csp : CSP) :
    prop_BT s csp none = (true, []) ∧
    ∀ v : VarId,
      (prop_BT s csp (some v)).2 = [] ∧
      ((prop_BT s csp (some v)).1 = false ↔
        ∃ c ∈ csp.get_cons_with_var v, c.get_n_unasgn s = 0 ∧
          c.check (c.scope.map (get_assigned_value s)) = false) := by
  refine ⟨rfl, fun v => ⟨rfl, ?_⟩⟩
  exact btLoop_eq_false_iff s (csp.get_cons_with_var v)

/-! ### C10: prop_FC restores all assignments -/

theorem fcValLoop_assigned (c : Constraint) (u : VarId) :
    ∀ (vals : List Value) (s : NetState) (pruned : List (VarId × Value)),
      (s u).assigned = none →
      ∀ w, (((fcValLoop c u s pruned vals).2.2) w).assigned = (s w).assigned := by
  intro vals
  induction vals with
  | nil => intro s pruned h w; rfl
  | cons val rest ih =>
    intro s pruned h w
    have hafter : ∀ (s2 : NetState) (w : VarId),
        ((unassign s2 u) w).assigned = if w = u then none else (s2 w).assigned :=
      fun s2 w => unassign_assigned s2 u w
    simp only [fcValLoop]
    split
    · rw [ih (unassign (assign s u val) u) pruned]
      · rw [hafter, assign_assigned]
        by_cases hw : w = u <;> simp [hw, h]
      · rw [hafter]; simp
    · simp only [cur_domain_size_method_eq_zero, if_false, Bool.false_eq_true]
      split
      · rw [ih (unassign (prune_value (assign s u val) u val) u) (pruned ++ [(u, val)])]
        · rw [hafter, prune_value_assigned, assign_assigned]
          by_cases hw : w = u <;> simp [hw, h]
        · rw [hafter]; simp
      · rw [ih (unassign (assign s u val) u) pruned]
        · rw [hafter, assign_assigned]
          by_cases hw : w = u <;> simp [hw, h]
        · rw [hafter]; simp

theorem fcConsLoop_assigned :
    ∀ (l : List Constraint) (s : NetState) (pruned : List (VarId × Value)),
      ∀ w, (((fcConsLoop s pruned l).2.2) w).assigned = (s w).assigned := by
  intro l
  induction l with
  | nil => intro s pruned w; rfl
  | cons c rest ih =>
    intro s pruned w
    simp only [fcConsLoop]
    split
    · rename_i hn
      rcases hf : c.scope.filter (fun v => !(is_assigned s v)) with _ | ⟨u, tail⟩
      · simp [ih]
      · rcases tail with _ | ⟨u2, tail2⟩
        · have hu : u ∈ c.scope.filter (fun v => !(is_assigned s v)) := by
            rw [hf]; exact List.mem_singleton.mpr rfl
          have hu2 : (s u).assigned = none := by
            have h2 := (List.mem_filter.mp hu).2
            simp only [Bool.not_eq_true'] at h2
            cases hcase : (s u).assigned with
            | none => rfl
            | some a => rw [is_assigned, hcase] at h2; simp at h2
          show ((match fcValLoop c u s pruned (cur_domain s u) with
              | (true, pruned1, s1) => fcConsLoop s1 pruned1 rest
              | (false, pruned1, s1) => (false, pruned1, s1)).2.2 w).assigned =
            (s w).assigned
          rcases hres : fcValLoop c u s pruned (cur_domain s u) with ⟨ok, pruned1, s1⟩
          have hval := fcValLoop_assigned c u (cur_domain s u) s pruned hu2
          rw [hres] at hval
          cases ok
          · simpa using hval w
          · simpa [ih s1 pruned1 w] using hval w
        · simp [ih]
    · simp [ih]

/-- C10: prop_FC leaves the assignment state of every variable unchanged: the
single unassigned variable of each processed constraint is assigned each
candidate value but unassigned again inside the loop, so on every return path
the assignment map equals the input's, and only current domains are modified
(the state holds nothing but current domains and assignments). -/
theorem fc_preserves_assignments (s : NetState) (csp : CSP) (newVar : Option VarId)
    (w : VarId) :
    (((prop_FC s csp newVar).2.2) w).assigned = (s w).assigned := by
  cases newVar with
  | none => exact fcConsLoop_assigned csp.get_all_cons s [] w
  | some nv => exact fcConsLoop_assigned (csp.get_cons_with_var nv) s [] w

/-! ### C3: the newVar initialization phase of prop_GAC -/

theorem gacNewVarLoop_snd (v : VarId) (a : Option Value) :
    ∀ (dom : List Value) (s : NetState) (pruned : List (VarId × Value)),
      (gacNewVarLoop v a s pruned dom).2 =
        pruned ++ (dom.filter (fun x => some x ≠ a)).map (fun x => (v, x)) := by
  intro dom
  induction dom with
  | nil => intro s pruned; simp [gacNewVarLoop]
  | cons val rest ih =>
    intro s pruned
    by_cases h : some val ≠ a
    · simp [gacNewVarLoop, h, ih]
    · simp [gacNewVarLoop, h, ih]

/-- C3: for a newVar that carries a bound value `a`, prop_GAC first prunes
from newVar's current domain exactly the values different from `a` (each
appended once to the pruning list, which is duplicate-free), leaving newVar's
current domain holding only its assigned value, and then runs the main loop
on exactly the constraints referencing newVar as the initial queue. -/
theorem gac_newvar_init_prunes_to_assigned (fuel : Nat) (s : NetState) (csp : CSP)
    (v : VarId) (a : Value) (h : (s v).assigned = some a) :
    (gacPruneNewVar s v).2 =
      ((cur_domain s v).filter (fun x => x ≠ a)).map (fun x => (v, x)) ∧
    ((gacPruneNewVar s v).2).Nodup ∧
    (∀ x ∈ cur_domain (gacPruneNewVar s v).1 v, x = a) ∧
    prop_GAC fuel s csp (some v) =
      gacLoop csp fuel (gacPruneNewVar s v).1 (gacPruneNewVar s v).2
        (csp.get_cons_with_var v) := by
  have hcd : cur_domain s v = [a] := by simp [cur_domain, h]
  have hga : get_assigned_value s v = some a := by simp [get_assigned_value, h]
  have hloop : gacPruneNewVar s v = (s, []) := by
    rw [gacPruneNewVar, hga, hcd]
    simp [gacNewVarLoop]
  refine ⟨?_, ?_, ?_, rfl⟩
  · rw [hloop, hcd]
    simp
  · rw [hloop]
    exact List.nodup_nil
  · rw [hloop, hcd]
    intro x hx
    simpa using hx

/-! ### The pruning-list/domain correspondence (C4) -/

/-- The driver-facing restoration property: the resulting current domains are
the initial ones minus exactly the values listed for that variable. -/
def domsMatchPruning (s0 s1 : NetState) (l : List (VarId × Value)) : Prop :=
  ∀ v, (s1 v).curDom = (s0 v).curDom.filter (fun x => !(l.contains (v, x)))

theorem domsMatchPruning_refl (s : NetState) : domsMatchPruning s s [] := by
  intro v
  simp

theorem domsMatchPruning_assign (s0 s1 : NetState) (l : List (VarId × Value))
    (u : VarId) (val : Value) (h : domsMatchPruning s0 s1 l) :
    domsMatchPruning s0 (assign s1 u val) l := by
  intro v
  rw [assign_curDom]
  exact h v

theorem domsMatchPruning_unassign (s0 s1 : NetState) (l : List (VarId × Value))
    (u : VarId) (h : domsMatchPruning s0 s1 l) :
    domsMatchPruning s0 (unassign s1 u) l := by
  intro v
  rw [unassign_curDom]
  exact h v

theorem domsMatchPruning_prune (s0 s1 : NetState) (l : List (VarId × Value))
    (v : VarId) (val : Value) (hnd : ∀ w, (s0 w).curDom.Nodup)
    (h : domsMatchPruning s0 s1 l) :
    domsMatchPruning s0 (prune_value s1 v val) (l ++ [(v, val)]) := by
  intro w
  rw [prune_value_curDom]
  by_cases hw : w = v
  · subst hw
    rw [if_pos rfl, h w]
    have hnodup : ((s0 w).curDom.filter (fun x => !(l.contains (w, x)))).Nodup :=
      (hnd w).filter _
    rw [hnodup.erase_eq_filter, List.filter_filter]
    apply List.filter_congr
    intro x hx
    by_cases hxl : (w, x) ∈ l <;> by_cases hxv : x = val <;> simp [hxl, hxv]
  · rw [if_neg hw, h w]
    apply List.filter_congr
    intro x hx
    by_cases hxl : (w, x) ∈ l <;> simp [hxl, hw]

theorem fcValLoop_doms (c : Constraint) (u : VarId) (s0 : NetState)
    (hnd : ∀ w, (s0 w).curDom.Nodup) :
    ∀ (vals : List Value) (s : NetState) (pruned : List (VarId × Value)),
      domsMatchPruning s0 s pruned →
      domsMatchPruning s0 (fcValLoop c u s pruned vals).2.2
        (fcValLoop c u s pruned vals).2.1 := by
  intro vals
  induction vals with
  | nil => intro s pruned h; exact h
  | cons val rest ih =>
    intro s pruned h
    simp only [fcValLoop, cur_domain_size_method_eq_zero, Bool.false_eq_true, if_false]
    split
    · exact ih _ _ (domsMatchPruning_unassign _ _ _ u
        (domsMatchPruning_assign _ _ _ u val h))
    · by_cases hin : in_cur_domain (assign s u val) u val
      · simp only [hin, if_true]
        exact ih _ _ (domsMatchPruning_unassign _ _ _ u
          (domsMatchPruning_prune _ _ _ u val hnd
            (domsMatchPruning_assign _ _ _ u val h)))
      · simp only [hin, if_false, Bool.false_eq_true]
        exact ih _ _ (domsMatchPruning_unassign _ _ _ u
          (domsMatchPruning_assign _ _ _ u val h))

theorem fcConsLoop_doms (s0 : NetState) (hnd : ∀ w, (s0 w).curDom.Nodup) :
    ∀ (l : List Constraint) (s : NetState) (pruned : List (VarId × Value)),
      domsMatchPruning s0 s pruned →
      domsMatchPruning s0 (fcConsLoop s pruned l).2.2
        (fcConsLoop s pruned l).2.1 := by
  intro l
  induction l with
  | nil => intro s pruned h; exact h
  | cons c rest ih =>
    intro s pruned h
    simp only [fcConsLoop]
    split
    · rcases hf : c.scope.filter (fun v => !(is_assigned s v)) with _ | ⟨u, tail⟩
      · exact ih _ _ h
      · rcases tail with _ | ⟨u2, tail2⟩
        · show domsMatchPruning s0
            ((match fcValLoop c u s pruned (cur_domain s u) with
              | (true, pruned1, s1) => fcConsLoop s1 pruned1 rest
              | (false, pruned1, s1) => (false, pruned1, s1)).2.2)
            ((match fcValLoop c u s pruned (cur_domain s u) with
              | (true, pruned1, s1) => fcConsLoop s1 pruned1 rest
              | (false, pruned1, s1) => (false, pruned1, s1)).2.1)
          rcases hres : fcValLoop c u s pruned (cur_domain s u) with ⟨ok, pruned1, s1⟩
          have hv := fcValLoop_doms c u s0 hnd (cur_domain s u) s pruned h
          rw [hres] at hv
          cases ok
          · exact hv
          · exact ih s1 pruned1 hv
        · exact ih _ _ h
    · exact ih _ _ h

def GacStep.state : GacStep → NetState
  | GacStep.fail s _ => s
  | GacStep.cont s _ _ => s

def GacStep.prunedList : GacStep → List (VarId × Value)
  | GacStep.fail _ p => p
  | GacStep.cont _ p _ => p

theorem gacValLoop_doms (csp : CSP) (c : Constraint) (var : VarId) (s0 : NetState)
    (hnd : ∀ w, (s0 w).curDom.Nodup) :
    ∀ (vals : List Value) (s : NetState) (pruned : List (VarId × Value))
      (queue : List Constraint),
      domsMatchPruning s0 s pruned →
      domsMatchPruning s0 (gacValLoop csp c var s pruned queue vals).state
        (gacValLoop csp c var s pruned queue vals).prunedList := by
  intro vals
  induction vals with
  | nil => intro s pruned queue h; exact h
  | cons val rest ih =>
    intro s pruned queue h
    simp only [gacValLoop]
    split
    · exact ih _ _ _ h
    · by_cases hin : in_cur_domain s var val
      · simp only [hin, if_true]
        split
        · exact domsMatchPruning_prune _ _ _ var val hnd h
        · exact ih _ _ _ (domsMatchPruning_prune _ _ _ var val hnd h)
      · simp only [hin, if_false, Bool.false_eq_true]
        split
        · exact h
        · exact ih _ _ _ h

theorem gacVarLoop_doms (csp : CSP) (c : Constraint) (s0 : NetState)
    (hnd : ∀ w, (s0 w).curDom.Nodup) :
    ∀ (vars : List VarId) (s : NetState) (pruned : List (VarId × Value))
      (queue : List Constraint),
      domsMatchPruning s0 s pruned →
      domsMatchPruning s0 (gacVarLoop csp c s pruned queue vars).state
        (gacVarLoop csp c s pruned queue vars).prunedList := by
  intro vars
  induction vars with
  | nil => intro s pruned queue h; exact h
  | cons var rest ih =>
    intro s pruned queue h
    simp only [gacVarLoop]
    rcases hres : gacValLoop csp c var s pruned queue (cur_domain s var) with
      ⟨s1, p1⟩ | ⟨s1, p1, q1⟩
    · have hv := gacValLoop_doms csp c var s0 hnd (cur_domain s var) s pruned queue h
      rw [hres] at hv
      exact hv
    · have hv := gacValLoop_doms csp c var s0 hnd (cur_domain s var) s pruned queue h
      rw [hres] at hv
      exact ih s1 p1 q1 hv

theorem gacLoop_doms (csp : CSP) (s0 : NetState) (hnd : ∀ w, (s0 w).curDom.Nodup) :
    ∀ (fuel : Nat) (s : NetState) (pruned : List (VarId × Value))
      (queue : List Constraint) (ok : Bool) (l : List (VarId × Value)) (s' : NetState),
      gacLoop csp fuel s pruned queue = some (ok, l, s') →
      domsMatchPruning s0 s pruned →
      domsMatchPruning s0 s' l := by
  intro fuel
  induction fuel with
  | zero =>
    intro s pruned queue ok l s' heq h
    cases queue with
    | nil =>
      simp only [gacLoop, Option.some.injEq, Prod.mk.injEq] at heq
      rw [← heq.2.2, ← heq.2.1]
      exact h
    | cons c rest => simp [gacLoop] at heq
  | succ fuel ih =>
    intro s pruned queue ok l s' heq h
    cases queue with
    | nil =>
      simp only [gacLoop, Option.some.injEq, Prod.mk.injEq] at heq
      rw [← heq.2.2, ← heq.2.1]
      exact h
    | cons c rest =>
      simp only [gacLoop] at heq
      rcases hres : gacVarLoop csp c s pruned rest c.scope with ⟨s1, p1⟩ | ⟨s1, p1, q1⟩
      · rw [hres] at heq
        simp only [Option.some.injEq, Prod.mk.injEq] at heq
        have hv := gacVarLoop_doms csp c s0 hnd c.scope s pruned rest h
        rw [hres] at hv
        rw [← heq.2.2, ← heq.2.1]
        exact hv
      · rw [hres] at heq
        have hv := gacVarLoop_doms csp c s0 hnd c.scope s pruned rest h
        rw [hres] at hv
        exact ih s1 p1 q1 ok l s' heq hv

theorem gacNewVarLoop_doms (v : VarId) (a : Option Value) (s0 : NetState)
    (hnd : ∀ w, (s0 w).curDom.Nodup) :
    ∀ (dom : List Value) (s : NetState) (pruned : List (VarId × Value)),
      domsMatchPruning s0 s pruned →
      domsMatchPruning s0 (gacNewVarLoop v a s pruned dom).1
        (gacNewVarLoop v a s pruned dom).2 := by
  intro dom
  induction dom with
  | nil => intro s pruned h; exact h
  | cons val rest ih =>
    intro s pruned h
    by_cases hne : some val ≠ a
    · simp only [gacNewVarLoop, if_pos hne]
      exact ih _ _ (domsMatchPruning_prune _ _ _ v val hnd h)
    · simp only [gacNewVarLoop, if_neg hne]
      exact ih _ _ h

/-- C4: a propagator signals a dead end only through its return value (the
embeddings of prop_BT and prop_FC are total functions, and prop_GAC's only
non-value outcome is running out of fuel, i.e. the Python loop not
terminating — no fault is ever raised), and whenever prop_FC or prop_GAC
returns ok = false the returned list accounts for exactly the pruning
performed during that call: every variable's resulting current domain is its
initial one minus precisely the values listed for it, so restoring the list
recovers the pre-call domains.  prop_BT returns an empty list and performs no
pruning at all. -/
theorem propagators_failure_returns_full_pruning (s : NetState) (csp : CSP)
    (newVar : Option VarId) (fuel : Nat) (hnd : ∀ v, (s v).curDom.Nodup) :
    (prop_BT s csp newVar).2 = [] ∧
    (∀ ok l s', prop_FC s csp newVar = (ok, l, s') → ok = false →
      ∀ v, (s' v).curDom = (s v).curDom.filter (fun x => !(l.contains (v, x)))) ∧
    (∀ ok l s', prop_GAC fuel s csp newVar = some (ok, l, s') → ok = false →
      ∀ v, (s' v).curDom = (s v).curDom.filter (fun x => !(l.contains (v, x)))) := by
  refine ⟨?_, ?_, ?_⟩
  · cases newVar <;> rfl
  · intro ok l s' heq _
    have h : domsMatchPruning s (prop_FC s csp newVar).2.2 (prop_FC s csp newVar).2.1 := by
      cases newVar with
      | none => exact fcConsLoop_doms s hnd csp.get_all_cons s [] (domsMatchPruning_refl s)
      | some nv =>
        exact fcConsLoop_doms s hnd (csp.get_cons_with_var nv) s [] (domsMatchPruning_refl s)
    rw [heq] at h
    exact h
  · intro ok l s' heq _
    cases newVar with
    | none =>
      exact gacLoop_doms csp s hnd fuel s [] (initialGACQueue csp none) ok l s' heq
        (domsMatchPruning_refl s)
    | some nv =>
      have hinit : domsMatchPruning s (gacPruneNewVar s nv).1 (gacPruneNewVar s nv).2 :=
        gacNewVarLoop_doms nv (get_assigned_value s nv) s hnd (cur_domain s nv) s []
          (domsMatchPruning_refl s)
      exact gacLoop_doms csp s hnd fuel (gacPruneNewVar s nv).1 (gacPruneNewVar s nv).2
        (initialGACQueue csp (some nv)) ok l s' heq hinit

/-- Witness for C4 at a concrete network: domains are duplicate-free, and the
conclusion holds for that network. -/
theorem propagators_failure_returns_full_pruning_witness :
    (∀ v : VarId, (sDup v).curDom.Nodup) ∧
    ((prop_BT sDup cspDup (some 0)).2 = [] ∧
      (∀ ok l s', prop_FC sDup cspDup (some 0) = (ok, l, s') → ok = false →
        ∀ v, (s' v).curDom = (sDup v).curDom.filter (fun x => !(l.contains (v, x)))) ∧
      (∀ ok l s', prop_GAC 10 sDup cspDup (some 0) = some (ok, l, s') → ok = false →
        ∀ v, (s' v).curDom = (sDup v).curDom.filter (fun x => !(l.contains (v, x))))) := by
  have hnd : ∀ v : VarId, (sDup v).curDom.Nodup := by
    intro v
    by_cases h0 : v = 0
    · simp [sDup, h0]
    · by_cases h1 : v = 1 <;> simp [sDup, h0, h1]
  exact ⟨hnd, propagators_failure_returns_full_pruning sDup cspDup (some 0) 10 hnd⟩

/-! ### C5: agreement on fully assigned networks -/

theorem gacPruneNewVar_of_assigned (s : NetState) (v : VarId) (a : Value)
    (h : (s v).assigned = some a) : gacPruneNewVar s v = (s, []) := by
  have hcd : cur_domain s v = [a] := by simp [cur_domain, h]
  have hga : get_assigned_value s v = some a := by simp [get_assigned_value, h]
  rw [gacPruneNewVar, hga, hcd]
  simp [gacNewVarLoop]

theorem btLoop_true_of_sat (s : NetState) :
    ∀ (l : List Constraint),
      (∀ c ∈ l, c.check (c.scope.map (get_assigned_value s)) = true) →
      btLoop s l = true := by
  intro l
  induction l with
  | nil => intro _; rfl
  | cons c rest ih =>
    intro hsat
    have hc := hsat c (List.mem_cons_self c rest)
    have hrest : ∀ c2 ∈ rest, c2.check (c2.scope.map (get_assigned_value s)) = true :=
      fun c2 h2 => hsat c2 (List.mem_cons_of_mem c h2)
    by_cases h : c.get_n_unasgn s = 0
    · simp [btLoop, h, hc, ih hrest]
    · simp [btLoop, h, ih hrest]

theorem get_n_unasgn_zero_of_assigned (s : NetState) (c : Constraint)
    (hall : ∀ v : VarId, is_assigned s v = true) : c.get_n_unasgn s = 0 := by
  rw [Constraint.get_n_unasgn]
  have : c.scope.filter (fun v => !(is_assigned s v)) = [] := by
    rw [List.filter_eq_nil_iff]
    intro v _
    simp [hall v]
  rw [this]
  rfl

theorem fcConsLoop_noop_of_assigned (s : NetState)
    (hall : ∀ v : VarId, is_assigned s v = true) :
    ∀ (l : List Constraint) (pruned : List (VarId × Value)),
      fcConsLoop s pruned l = (true, pruned, s) := by
  intro l
  induction l with
  | nil => intro pruned; rfl
  | cons c rest ih =>
    intro pruned
    have h0 : c.get_n_unasgn s = 0 := get_n_unasgn_zero_of_assigned s c hall
    simp [fcConsLoop, h0, ih]

theorem zip_all_support_of_sat (s : NetState) (var : VarId) (val : Value)
    (hv : (s var).assigned = some val) :
    ∀ (scope : List VarId) (t : List Value),
      t.map some = scope.map (get_assigned_value s) →
      (scope.zip t).all (fun p =>
        if p.1 = var then p.2 == val else in_cur_domain s p.1 p.2) = true := by
  intro scope
  induction scope with
  | nil => intro t _; simp
  | cons w ws ih =>
    intro t hmap
    cases t with
    | nil => simp at hmap
    | cons x xs =>
      simp only [List.map_cons, List.cons.injEq] at hmap
      have hx : (s w).assigned = some x := by
        rw [get_assigned_value] at hmap
        exact hmap.1.symm
      simp only [List.zip_cons_cons, List.all_cons, Bool.and_eq_true]
      refine ⟨?_, ih xs hmap.2⟩
      by_cases hw : w = var
      · subst hw
        rw [hv] at hx
        have hxv : val = x := by injection hx
        simp [hxv]
      · simp only [hw, if_false]
        rw [in_cur_domain, hx]
        simp

theorem has_support_of_assigned_sat (s : NetState) (c : Constraint)
    (hsat : c.check (c.scope.map (get_assigned_value s)) = true)
    (var : VarId) (_hvar : var ∈ c.scope) (val : Value)
    (hval : (s var).assigned = some val) :
    c.has_support s var val = true := by
  rw [Constraint.check, List.any_eq_true] at hsat
  obtain ⟨t, ht, hmap⟩ := hsat
  rw [Constraint.has_support, List.any_eq_true]
  refine ⟨t, ht, ?_⟩
  exact zip_all_support_of_sat s var val hval c.scope t (by simpa using hmap)

theorem gacValLoop_noop (csp : CSP) (c : Constraint) (var : VarId) (s : NetState)
    (pruned : List (VarId × Value)) (queue : List Constraint) :
    ∀ (vals : List Value),
      (∀ val ∈ vals, c.has_support s var val = true) →
      gacValLoop csp c var s pruned queue vals = GacStep.cont s pruned queue := by
  intro vals
  induction vals with
  | nil => intro _; rfl
  | cons val rest ih =>
    intro hsup
    have hval := hsup val (List.mem_cons_self val rest)
    simp only [gacValLoop, hval, if_true]
    exact ih (fun v hvv => hsup v (List.mem_cons_of_mem val hvv))

theorem gacVarLoop_noop (csp : CSP) (c : Constraint) (s : NetState)
    (pruned : List (VarId × Value)) (queue : List Constraint) :
    ∀ (vars : List VarId),
      (∀ var ∈ vars, ∀ val ∈ cur_domain s var, c.has_support s var val = true) →
      gacVarLoop csp c s pruned queue vars = GacStep.cont s pruned queue := by
  intro vars
  induction vars with
  | nil => intro _; rfl
  | cons var rest ih =>
    intro hsup
    have h1 : gacValLoop csp c var s pruned queue (cur_domain s var) =
        GacStep.cont s pruned queue :=
      gacValLoop_noop csp c var s pruned queue (cur_domain s var)
        (hsup var (List.mem_cons_self var rest))
    simp only [gacVarLoop, h1]
    exact ih (fun v hv => hsup v (List.mem_cons_of_mem var hv))

theorem gacLoop_drain (csp : CSP) (s : NetState) (pruned : List (VarId × Value)) :
    ∀ (fuel : Nat) (queue : List Constraint),
      queue.length ≤ fuel →
      (∀ c ∈ queue, ∀ var ∈ c.scope, ∀ val ∈ cur_domain s var,
        c.has_support s var val = true) →
      gacLoop csp fuel s pruned queue = some (true, pruned, s) := by
  intro fuel
  induction fuel with
  | zero =>
    intro queue hlen _
    cases queue with
    | nil => rfl
    | cons c rest => simp at hlen
  | succ fuel ih =>
    intro queue hlen hsup
    cases queue with
    | nil => rfl
    | cons c rest =>
      have h1 : gacVarLoop csp c s pruned rest c.scope = GacStep.cont s pruned rest :=
        gacVarLoop_noop csp c s pruned rest c.scope
          (hsup c (List.mem_cons_self c rest))
      simp only [gacLoop, h1]
      exact ih rest (Nat.le_of_succ_le_succ hlen)
        (fun c2 h2 => hsup c2 (List.mem_cons_of_mem c h2))

/-- C5 (amended): prop_BT, prop_FC and prop_GAC never report a different ok
verdict on a fully assigned network in which every constraint is satisfied by
the assigned values: all three return ok = true (and GAC terminates with no
pruning, given fuel covering its initial queue).  The claim as stated — that
the three verdicts agree on every fully assigned network — fails, because on
a violated constraint prop_BT reports false while prop_FC, which only looks
at constraints with exactly one unassigned variable, reports true (see the
counterexample theorem). -/
theorem propagators_agree_on_satisfied_assigned (s : NetState) (csp : CSP)
    (newVar : Option VarId) (fuel : Nat)
    (hall : ∀ v : VarId, is_assigned s v = true)
    (hsat : ∀ c ∈ csp.cons, c.check (c.scope.map (get_assigned_value s)) = true)
    (hfuel : (initialGACQueue csp newVar).length ≤ fuel) :
    (prop_BT s csp newVar).1 = true ∧
    (prop_FC s csp newVar).1 = true ∧
    prop_GAC fuel s csp newVar = some (true, [], s) := by
  have hsupAll : ∀ c ∈ csp.cons, ∀ var ∈ c.scope, ∀ val ∈ cur_domain s var,
      c.has_support s var val = true := by
    intro c hc var hvar val hval
    have hv := hall var
    rw [is_assigned, Option.isSome_iff_exists] at hv
    obtain ⟨a, ha⟩ := hv
    have : cur_domain s var = [a] := by simp [cur_domain, ha]
    rw [this] at hval
    have hva : val = a := by simpa using hval
    subst hva
    exact has_support_of_assigned_sat s c (hsat c hc) var hvar val ha
  refine ⟨?_, ?_, ?_⟩
  · cases newVar with
    | none => rfl
    | some nv =>
      show btLoop s (csp.get_cons_with_var nv) = true
      apply btLoop_true_of_sat
      intro c hc
      exact hsat c (List.mem_filter.mp hc).1
  · cases newVar with
    | none =>
      show (fcConsLoop s [] csp.get_all_cons).1 = true
      rw [fcConsLoop_noop_of_assigned s hall]
    | some nv =>
      show (fcConsLoop s [] (csp.get_cons_with_var nv)).1 = true
      rw [fcConsLoop_noop_of_assigned s hall]
  · cases newVar with
    | none =>
      show gacLoop csp fuel s [] (initialGACQueue csp none) = some (true, [], s)
      apply gacLoop_drain csp s [] fuel (initialGACQueue csp none) hfuel
      intro c hc
      exact hsupAll c hc
    | some nv =>
      have hnv := hall nv
      rw [is_assigned, Option.isSome_iff_exists] at hnv
      obtain ⟨a, ha⟩ := hnv
      show (let init := gacPruneNewVar s nv
        gacLoop csp fuel init.1 init.2 (initialGACQueue csp (some nv))) =
        some (true, [], s)
      rw [gacPruneNewVar_of_assigned s nv a ha]
      apply gacLoop_drain csp s [] fuel (initialGACQueue csp (some nv)) hfuel
      intro c hc
      exact hsupAll c (List.mem_filter.mp hc).1

/-- A fully assigned, fully satisfied one-variable network for the C5 witness. -/
def sSat : NetState := fun _ => ⟨[1], some 1⟩

def cspSat : CSP := ⟨[⟨[0], [[1]]⟩]⟩

/-- Witness for the amended C5 at a concrete satisfied network. -/
theorem propagators_agree_on_satisfied_assigned_witness :
    (∀ v : VarId, is_assigned sSat v = true) ∧
    (∀ c ∈ cspSat.cons, c.check (c.scope.map (get_assigned_value sSat)) = true) ∧
    (initialGACQueue cspSat (some 0)).length ≤ 2 ∧
    ((prop_BT sSat cspSat (some 0)).1 = true ∧
      (prop_FC sSat cspSat (some 0)).1 = true ∧
      prop_GAC 2 sSat cspSat (some 0) = some (true, [], sSat)) := by
  have h1 : ∀ v : VarId, is_assigned sSat v = true := fun v => rfl
  have h2 : ∀ c ∈ cspSat.cons, c.check (c.scope.map (get_assigned_value sSat)) = true := by
    intro c hc
    simp only [cspSat] at hc
    rw [List.mem_singleton] at hc
    subst hc
    rfl
  have h3 : (initialGACQueue cspSat (some 0)).length ≤ 2 := by
    rw [initialGACQueue]
    simp [cspSat, CSP.get_cons_with_var]
  exact ⟨h1, h2, h3, propagators_agree_on_satisfied_assigned sSat cspSat (some 0) 2 h1 h2 h3⟩

/-! ### C2: arc consistency on GAC success -/

theorem list_any_congr {α : Type} (p q : α → Bool) :
    ∀ (l : List α), (∀ a ∈ l, p a = q a) → l.any p = l.any q := by
  intro l
  induction l with
  | nil => intro _; rfl
  | cons a rest ih =>
    intro h
    simp only [List.any_cons]
    rw [h a (List.mem_cons_self a rest), ih (fun b hb => h b (List.mem_cons_of_mem a hb))]

theorem list_all_congr {α : Type} (p q : α → Bool) :
    ∀ (l : List α), (∀ a ∈ l, p a = q a) → l.all p = l.all q := by
  intro l
  induction l with
  | nil => intro _; rfl
  | cons a rest ih =>
    intro h
    simp only [List.all_cons]
    rw [h a (List.mem_cons_self a rest), ih (fun b hb => h b (List.mem_cons_of_mem a hb))]

theorem in_cur_domain_congr (s s' : NetState) (w : VarId) (h : s' w = s w) (val : Value) :
    in_cur_domain s' w val = in_cur_domain s w val := by
  rw [in_cur_domain, in_cur_domain, h]

theorem cur_domain_congr (s s' : NetState) (w : VarId) (h : s' w = s w) :
    cur_domain s' w = cur_domain s w := by
  rw [cur_domain, cur_domain, h]

theorem has_support_congr (c : Constraint) (s s' : NetState)
    (h : ∀ w ∈ c.scope, s' w = s w) (var : VarId) (val : Value) :
    c.has_support s' var val = c.has_support s var val := by
  rw [Constraint.has_support, Constraint.has_support]
  apply list_any_congr
  intro t _
  apply list_all_congr
  intro p hp
  by_cases hpv : p.1 = var
  · simp [hpv]
  · have hmem : p.1 ∈ c.scope := by
      rcases p with ⟨w, x⟩
      exact (List.of_mem_zip hp).1
    simp only [hpv, if_false]
    exact in_cur_domain_congr s s' p.1 (h p.1 hmem) p.2

theorem mem_enqueueAll_left :
    ∀ (l queue : List Constraint) (x : Constraint), x ∈ queue → x ∈ enqueueAll queue l := by
  intro l
  induction l with
  | nil => intro queue x hx; exact hx
  | cons c rest ih =>
    intro queue x hx
    simp only [enqueueAll]
    by_cases hc : queue.contains c = true
    · simp only [hc, if_true]
      exact ih queue x hx
    · simp only [hc, if_false, Bool.false_eq_true]
      exact ih (queue ++ [c]) x (List.mem_append_left _ hx)

theorem mem_enqueueAll_right :
    ∀ (l queue : List Constraint) (x : Constraint), x ∈ l → x ∈ enqueueAll queue l := by
  intro l
  induction l with
  | nil => intro queue x hx; exact absurd hx (List.not_mem_nil x)
  | cons c rest ih =>
    intro queue x hx
    rcases List.mem_cons.mp hx with hx | hx
    · subst hx
      simp only [enqueueAll]
      by_cases hc : queue.contains x = true
      · simp only [hc, if_true]
        exact mem_enqueueAll_left rest queue x (List.mem_of_elem_eq_true hc)
      · simp only [hc, if_false, Bool.false_eq_true]
        exact mem_enqueueAll_left rest (queue ++ [x]) x
          (List.mem_append_right _ (List.mem_singleton.mpr rfl))
    · simp only [enqueueAll]
      by_cases hc : queue.contains c = true <;> simp only [hc, if_true, if_false,
        Bool.false_eq_true] <;> exact ih _ x hx

theorem mem_enqueueAll_cases :
    ∀ (l queue : List Constraint) (x : Constraint),
      x ∈ enqueueAll queue l → x ∈ queue ∨ x ∈ l := by
  intro l
  induction l with
  | nil => intro queue x hx; exact Or.inl hx
  | cons c rest ih =>
    intro queue x hx
    simp only [enqueueAll] at hx
    by_cases hc : queue.contains c = true
    · rw [if_pos hc] at hx
      rcases ih queue x hx with h | h
      · exact Or.inl h
      · exact Or.inr (List.mem_cons_of_mem c h)
    · rw [if_neg hc] at hx
      rcases ih (queue ++ [c]) x hx with h | h
      · rcases List.mem_append.mp h with h | h
        · exact Or.inl h
        · exact Or.inr (List.mem_cons.mpr (Or.inl (List.mem_singleton.mp h)))
      · exact Or.inr (List.mem_cons_of_mem c h)

theorem mem_cons_with_var (csp : CSP) (c : Constraint) (w : VarId)
    (hc : c ∈ csp.cons) (hw : w ∈ c.scope) : c ∈ csp.get_cons_with_var w := by
  rw [CSP.get_cons_with_var]
  exact List.mem_filter.mpr ⟨hc, List.elem_eq_true_of_mem hw⟩

theorem cons_with_var_subset (csp : CSP) (w : VarId) (c : Constraint)
    (hc : c ∈ csp.get_cons_with_var w) : c ∈ csp.cons :=
  (List.mem_filter.mp hc).1

theorem gacValLoop_cont (csp : CSP) (c : Constraint) (var : VarId) :
    ∀ (vals : List Value) (s : NetState) (pruned : List (VarId × Value))
      (queue : List Constraint) (s' : NetState) (pruned' : List (VarId × Value))
      (queue' : List Constraint),
      gacValLoop csp c var s pruned queue vals = GacStep.cont s' pruned' queue' →
      (∃ d, pruned' = pruned ++ d ∧
        ∀ p ∈ d, ∀ c2 ∈ csp.get_cons_with_var p.1, c2 ∈ queue') ∧
      (∀ x ∈ queue, x ∈ queue') ∧
      (∀ w, s' w ≠ s w → ∀ c2 ∈ csp.get_cons_with_var w, c2 ∈ queue') ∧
      ((s' = s ∧ pruned' = pruned ∧ queue' = queue ∧
          ∀ val ∈ vals, c.has_support s var val = true) ∨
        (∀ c2 ∈ csp.get_cons_with_var var, c2 ∈ queue')) ∧
      (∀ x ∈ queue', x ∈ queue ∨ x ∈ csp.cons) := by
  intro vals
  induction vals with
  | nil =>
    intro s pruned queue s' pruned' queue' heq
    cases heq
    refine ⟨⟨[], by simp, by simp⟩, fun x hx => hx, ?_, ?_, fun x hx => Or.inl hx⟩
    · intro w hw
      exact absurd rfl hw
    · exact Or.inl ⟨rfl, rfl, rfl, by simp⟩
  | cons val rest ih =>
    intro s pruned queue s' pruned' queue' heq
    by_cases hsup : c.has_support s var val = true
    · rw [gacValLoop, if_pos hsup] at heq
      obtain ⟨⟨d, hd, hdcl⟩, h2, h3, h4, h5⟩ := ih s pruned queue s' pruned' queue' heq
      refine ⟨⟨d, hd, hdcl⟩, h2, h3, ?_, h5⟩
      rcases h4 with ⟨ha, hb, hc, hsups⟩ | h4
      · refine Or.inl ⟨ha, hb, hc, ?_⟩
        intro v hv
        rcases List.mem_cons.mp hv with hv | hv
        · subst hv; exact hsup
        · exact hsups v hv
      · exact Or.inr h4
    · rw [gacValLoop, if_neg hsup] at heq
      by_cases hin : in_cur_domain s var val = true
      · simp only [hin, if_true] at heq
        by_cases hsz : cur_domain_size (prune_value s var val) var = 0
        · rw [if_pos hsz] at heq
          cases heq
        · rw [if_neg hsz] at heq
          obtain ⟨⟨d, hd, hdcl⟩, h2, h3, h4, h5⟩ :=
            ih (prune_value s var val) (pruned ++ [(var, val)])
              (gacEnqueue csp var queue) s' pruned' queue' heq
          have hcwv : ∀ c2 ∈ csp.get_cons_with_var var, c2 ∈ queue' := by
            intro c2 hc2
            exact h2 c2 (mem_enqueueAll_right _ queue c2 hc2)
          refine ⟨⟨(var, val) :: d, by simp [hd], ?_⟩, ?_, ?_, Or.inr hcwv, ?_⟩
          · intro p hp
            rcases List.mem_cons.mp hp with hp | hp
            · subst hp; exact hcwv
            · exact hdcl p hp
          · intro x hx
            exact h2 x (mem_enqueueAll_left _ queue x hx)
          · intro w hw
            by_cases hwv : w = var
            · subst hwv; exact hcwv
            · have hpw : prune_value s var val w = s w := prune_value_other s var val w hwv
              rw [← hpw] at hw
              exact h3 w hw
          · intro x hx
            rcases h5 x hx with h | h
            · rcases mem_enqueueAll_cases _ queue x h with h | h
              · exact Or.inl h
              · exact Or.inr (cons_with_var_subset csp var x h)
            · exact Or.inr h
      · simp only [hin, Bool.false_eq_true, if_false] at heq
        by_cases hsz : cur_domain_size s var = 0
        · rw [if_pos hsz] at heq
          cases heq
        · rw [if_neg hsz] at heq
          obtain ⟨⟨d, hd, hdcl⟩, h2, h3, h4, h5⟩ :=
            ih s pruned (gacEnqueue csp var queue) s' pruned' queue' heq
          have hcwv : ∀ c2 ∈ csp.get_cons_with_var var, c2 ∈ queue' := by
            intro c2 hc2
            exact h2 c2 (mem_enqueueAll_right _ queue c2 hc2)
          refine ⟨⟨d, hd, hdcl⟩, ?_, h3, Or.inr hcwv, ?_⟩
          · intro x hx
            exact h2 x (mem_enqueueAll_left _ queue x hx)
          · intro x hx
            rcases h5 x hx with h | h
            · rcases mem_enqueueAll_cases _ queue x h with h | h
              · exact Or.inl h
              · exact Or.inr (cons_with_var_subset csp var x h)
            · exact Or.inr h

theorem gacVarLoop_cont (csp : CSP) (c : Constraint) :
    ∀ (vars : List VarId) (s : NetState) (pruned : List (VarId × Value))
      (queue : List Constraint) (s' : NetState) (pruned' : List (VarId × Value))
      (queue' : List Constraint),
      gacVarLoop csp c s pruned queue vars = GacStep.cont s' pruned' queue' →
      (∃ d, pruned' = pruned ++ d ∧
        ∀ p ∈ d, ∀ c2 ∈ csp.get_cons_with_var p.1, c2 ∈ queue') ∧
      (∀ x ∈ queue, x ∈ queue') ∧
      (∀ w, s' w ≠ s w → ∀ c2 ∈ csp.get_cons_with_var w, c2 ∈ queue') ∧
      ((s' = s ∧ pruned' = pruned ∧ queue' = queue ∧
          ∀ var ∈ vars, ∀ val ∈ cur_domain s var, c.has_support s var val = true) ∨
        (∃ var ∈ vars, ∀ c2 ∈ csp.get_cons_with_var var, c2 ∈ queue')) ∧
      (∀ x ∈ queue', x ∈ queue ∨ x ∈ csp.cons) := by
  intro vars
  induction vars with
  | nil =>
    intro s pruned queue s' pruned' queue' heq
    cases heq
    refine ⟨⟨[], by simp, by simp⟩, fun x hx => hx, ?_, ?_, fun x hx => Or.inl hx⟩
    · intro w hw
      exact absurd rfl hw
    · exact Or.inl ⟨rfl, rfl, rfl, by simp⟩
  | cons var rest ih =>
    intro s pruned queue s' pruned' queue' heq
    rw [gacVarLoop] at heq
    rcases hres : gacValLoop csp c var s pruned queue (cur_domain s var) with
      ⟨s1, p1⟩ | ⟨s1, p1, q1⟩
    · rw [hres] at heq
      cases heq
    · rw [hres] at heq
      obtain ⟨⟨d1, hd1, hdcl1⟩, hP2, hP3, hP4, hP5⟩ :=
        gacValLoop_cont csp c var (cur_domain s var) s pruned queue s1 p1 q1 hres
      obtain ⟨⟨d2, hd2, hdcl2⟩, hQ2, hQ3, hQ4, hQ5⟩ :=
        ih s1 p1 q1 s' pruned' queue' heq
      refine ⟨⟨d1 ++ d2, by rw [hd2, hd1, List.append_assoc], ?_⟩, ?_, ?_, ?_, ?_⟩
      · intro p hp
        rcases List.mem_append.mp hp with hp | hp
        · intro c2 hc2
          exact hQ2 c2 (hdcl1 p hp c2 hc2)
        · exact hdcl2 p hp
      · intro x hx
        exact hQ2 x (hP2 x hx)
      · intro w hw
        by_cases h1 : s1 w = s w
        · rw [← h1] at hw
          exact hQ3 w hw
        · intro c2 hc2
          exact hQ2 c2 (hP3 w h1 c2 hc2)
      · rcases hP4 with ⟨ha1, hb1, hc1, hsup1⟩ | hP4
        · rcases hQ4 with ⟨ha2, hb2, hc2, hsup2⟩ | hQ4
          · subst ha1
            refine Or.inl ⟨ha2, by rw [hb2, hb1], by rw [hc2, hc1], ?_⟩
            intro v hv
            rcases List.mem_cons.mp hv with hv | hv
            · subst hv; exact hsup1
            · exact hsup2 v hv
          · obtain ⟨v, hv, hcl⟩ := hQ4
            exact Or.inr ⟨v, List.mem_cons_of_mem var hv, hcl⟩
        · refine Or.inr ⟨var, List.mem_cons_self var rest, ?_⟩
          intro c2 hc2
          exact hQ2 c2 (hP4 c2 hc2)
      · intro x hx
        rcases hQ5 x hx with h | h
        · rcases hP5 x h with h | h
          · exact Or.inl h
          · exact Or.inr h
        · exact Or.inr h

theorem gacLoop_arc_sound (csp : CSP) (B : Constraint → Prop) :
    ∀ (fuel : Nat) (s : NetState) (pruned : List (VarId × Value))
      (queue : List Constraint) (pruned' : List (VarId × Value)) (s' : NetState),
      gacLoop csp fuel s pruned queue = some (true, pruned', s') →
      (∀ x ∈ queue, x ∈ csp.cons) →
      (∀ c ∈ csp.cons, (B c ∨ ∃ p ∈ pruned, p.1 ∈ c.scope) →
        c ∈ queue ∨ ∀ var ∈ c.scope, ∀ val ∈ cur_domain s var,
          c.has_support s var val = true) →
      ∀ c ∈ csp.cons, (B c ∨ ∃ p ∈ pruned', p.1 ∈ c.scope) →
        ∀ var ∈ c.scope, ∀ val ∈ cur_domain s' var,
          c.has_support s' var val = true := by
  intro fuel
  induction fuel with
  | zero =>
    intro s pruned queue pruned' s' heq hqc hinv c hc hyp
    cases queue with
    | nil =>
      simp only [gacLoop, Option.some.injEq, Prod.mk.injEq, true_and] at heq
      obtain ⟨hpr, hst⟩ := heq
      subst hpr
      subst hst
      rcases hinv c hc hyp with h | h
      · exact absurd h (List.not_mem_nil c)
      · exact h
    | cons c0 rest => simp [gacLoop] at heq
  | succ fuel ih =>
    intro s pruned queue pruned' s' heq hqc hinv c hc hyp
    cases queue with
    | nil =>
      simp only [gacLoop, Option.some.injEq, Prod.mk.injEq, true_and] at heq
      obtain ⟨hpr, hst⟩ := heq
      subst hpr
      subst hst
      rcases hinv c hc hyp with h | h
      · exact absurd h (List.not_mem_nil c)
      · exact h
    | cons c0 rest =>
      rw [gacLoop] at heq
      rcases hres : gacVarLoop csp c0 s pruned rest c0.scope with
        ⟨s1, p1⟩ | ⟨s1, p1, q1⟩
      · rw [hres] at heq
        simp at heq
      · rw [hres] at heq
        obtain ⟨⟨d, hd, hdcl⟩, hQ2, hQ3, hQ4, hQ5⟩ :=
          gacVarLoop_cont csp c0 c0.scope s pruned rest s1 p1 q1 hres
        have hc0cons : c0 ∈ csp.cons := hqc c0 (List.mem_cons_self c0 rest)
        have hqc1 : ∀ x ∈ q1, x ∈ csp.cons := by
          intro x hx
          rcases hQ5 x hx with h | h
          · exact hqc x (List.mem_cons_of_mem c0 h)
          · exact h
        have hinv1 : ∀ c2 ∈ csp.cons, (B c2 ∨ ∃ p ∈ p1, p.1 ∈ c2.scope) →
            c2 ∈ q1 ∨ ∀ var ∈ c2.scope, ∀ val ∈ cur_domain s1 var,
              c2.has_support s1 var val = true := by
          intro c2 hc2 hyp2
          by_cases hcq : c2 ∈ q1
          · exact Or.inl hcq
          · right
            have hnod : ∀ p ∈ d, p.1 ∉ c2.scope := by
              intro p hp hin
              exact hcq (hdcl p hp c2 (mem_cons_with_var csp c2 p.1 hc2 hin))
            have hyp2' : B c2 ∨ ∃ p ∈ pruned, p.1 ∈ c2.scope := by
              rcases hyp2 with h | ⟨p, hp, hpin⟩
              · exact Or.inl h
              · rw [hd] at hp
                rcases List.mem_append.mp hp with hp | hp
                · exact Or.inr ⟨p, hp, hpin⟩
                · exact absurd hpin (hnod p hp)
            have hunch : ∀ w ∈ c2.scope, s1 w = s w := by
              intro w hw
              by_contra hne
              exact hcq (hQ3 w hne c2 (mem_cons_with_var csp c2 w hc2 hw))
            rcases hinv c2 hc2 hyp2' with hmem | hsupp
            · rcases List.mem_cons.mp hmem with hmem | hmem
              · subst hmem
                rcases hQ4 with ⟨ha, hb, hcq', hsup⟩ | ⟨v, hv, hcl⟩
                · subst ha
                  exact hsup
                · exact absurd (hcl c2 (mem_cons_with_var csp c2 v hc2 hv)) hcq
              · exact absurd (hQ2 c2 hmem) hcq
            · intro var hvar val hval
              rw [has_support_congr c2 s s1 hunch var val]
              rw [cur_domain_congr s s1 var (hunch var hvar)] at hval
              exact hsupp var hvar val hval
        exact ih s1 p1 q1 pruned' s' heq hqc1 hinv1 c hc hyp

/-- C2: whenever prop_GAC returns ok = true, the network is arc-consistent
with respect to every constraint that entered the queue during the call: for
every such constraint, every variable in its scope, and every value remaining
in that variable's current domain, the constraint has a supporting tuple
consistent with the final current domains.  A constraint entered the queue
exactly when it was in the initial queue or references a variable from which
a value was pruned, which is how the hypothesis characterizes it. -/
theorem gac_success_arc_consistent (fuel : Nat) (s : NetState) (csp : CSP)
    (newVar : Option VarId) (pruned : List (VarId × Value)) (s' : NetState)
    (h : prop_GAC fuel s csp newVar = some (true, pruned, s'))
    (c : Constraint) (hc : c ∈ csp.cons)
    (henq : c ∈ initialGACQueue csp newVar ∨ ∃ p ∈ pruned, p.1 ∈ c.scope)
    (var : VarId) (hvar : var ∈ c.scope) (val : Value)
    (hval : val ∈ cur_domain s' var) :
    c.has_support s' var val = true := by
  cases newVar with
  | none =>
    have hq : ∀ x ∈ initialGACQueue csp none, x ∈ csp.cons := fun x hx => hx
    have hinv : ∀ c2 ∈ csp.cons,
        (c2 ∈ initialGACQueue csp none ∨ ∃ p ∈ ([] : List (VarId × Value)), p.1 ∈ c2.scope) →
        c2 ∈ initialGACQueue csp none ∨ ∀ var ∈ c2.scope, ∀ val ∈ cur_domain s var,
          c2.has_support s var val = true := by
      intro c2 hc2 _
      exact Or.inl hc2
    exact gacLoop_arc_sound csp (fun c2 => c2 ∈ initialGACQueue csp none) fuel s []
      (initialGACQueue csp none) pruned s' h hq hinv c hc henq var hvar val hval
  | some nv =>
    have hpairs : ∀ p ∈ (gacPruneNewVar s nv).2, p.1 = nv := by
      intro p hp
      rw [gacPruneNewVar, gacNewVarLoop_snd] at hp
      simp only [List.nil_append, List.mem_map, List.mem_filter] at hp
      obtain ⟨x, _, hx⟩ := hp
      rw [← hx]
    have hq : ∀ x ∈ initialGACQueue csp (some nv), x ∈ csp.cons := by
      intro x hx
      exact cons_with_var_subset csp nv x hx
    have hinv : ∀ c2 ∈ csp.cons,
        (c2 ∈ initialGACQueue csp (some nv) ∨
          ∃ p ∈ (gacPruneNewVar s nv).2, p.1 ∈ c2.scope) →
        c2 ∈ initialGACQueue csp (some nv) ∨
          ∀ var ∈ c2.scope, ∀ val ∈ cur_domain (gacPruneNewVar s nv).1 var,
            c2.has_support (gacPruneNewVar s nv).1 var val = true := by
      intro c2 hc2 hyp
      rcases hyp with hmem | ⟨p, hp, hpin⟩
      · exact Or.inl hmem
      · rw [hpairs p hp] at hpin
        exact Or.inl (mem_cons_with_var csp c2 nv hc2 hpin)
    exact gacLoop_arc_sound csp (fun c2 => c2 ∈ initialGACQueue csp (some nv)) fuel
      (gacPruneNewVar s nv).1 (gacPruneNewVar s nv).2
      (initialGACQueue csp (some nv)) pruned s' h hq hinv c hc henq var hvar val hval

/-- Witness for C2 on the Scenario-1 network: the call succeeds with pruning
list [(1, 1)], and the theorem yields support for the surviving value 2 of
variable 1 in the final state. -/
theorem gac_success_arc_consistent_witness :
    prop_GAC 5 sNeq cspNeq (some 0) = some (true, [(1, 1)], prune_value sNeq 1 1) ∧
    (⟨[0, 1], [[1, 2], [2, 1]]⟩ : Constraint) ∈ cspNeq.cons ∧
    Constraint.has_support ⟨[0, 1], [[1, 2], [2, 1]]⟩ (prune_value sNeq 1 1) 1 2 = true := by
  refine ⟨rfl, by decide, ?_⟩
  exact gac_success_arc_consistent 5 sNeq cspNeq (some 0) [(1, 1)]
    (prune_value sNeq 1 1) rfl ⟨[0, 1], [[1, 2], [2, 1]]⟩ (by decide)
    (Or.inl (by decide)) 1 (by decide) 2 (by decide)

/-- Witness for C3 on the Scenario-1 network, where newVar = 0 is bound to 1. -/
theorem gac_newvar_init_prunes_to_assigned_witness :
    (sNeq 0).assigned = some 1 ∧
    ((gacPruneNewVar sNeq 0).2 =
        ((cur_domain sNeq 0).filter (fun x => x ≠ (1 : Value))).map (fun x => (0, x)) ∧
      ((gacPruneNewVar sNeq 0).2).Nodup ∧
      (∀ x ∈ cur_domain (gacPruneNewVar sNeq 0).1 0, x = (1 : Value)) ∧
      prop_GAC 5 sNeq cspNeq (some 0) =
        gacLoop cspNeq 5 (gacPruneNewVar sNeq 0).1 (gacPruneNewVar sNeq 0).2
          (cspNeq.get_cons_with_var 0)) :=
  ⟨rfl, gac_newvar_init_prunes_to_assigned 5 sNeq cspNeq 0 1 rfl⟩
